import Mathlib

/-!
Shallow embedding of the synchronization core of the paper-plane chat node
(crate `chat-arch`): the per-peer log repository (`repository.rs`), the
repository manager's global order counter (`repository_manager.rs`), the
sync-engine request handlers (`sync_engine.rs`), the log store query
(`message_database.rs`), the peer-pool dial path (`dialer.rs`,
`peer_pool.rs`), and the authenticated key-agreement handshake
(`handshake.rs`).  Machine integers are modelled as `Nat`; the places the
source narrows to `i32` (`counter as i32` on the wire) are modelled
explicitly by `i32ofNat`.  Database writes (sqlx) are modelled as list
appends that succeed; message ids are fresh UUIDs at the only call sites,
so primary-key conflicts are out of scope.  Cryptographic primitives
(X25519, HKDF-SHA256, Ed25519) are external library calls and appear as
parameters; the repository's own handshake logic is embedded in full.
-/

namespace PaperPlane

/-- `DbMessage` from `models.rs`: one stored log entry. -/
structure DbMessage where
  counter : Nat
  id : String
  order : Nat
  timestamp : Int
  payload : List Nat
  peer_id : String
deriving Repr, DecidableEq

/-- The state of one `Repository` (repository.rs): its peer id, the atomic
`cur_counter`, and the rows persisted for this peer in insertion order. -/
structure Repo where
  id : String
  curCounter : Nat
  store : List DbMessage
deriving Repr, DecidableEq

/-- A fresh repository as built by `Repository::new` over an empty table:
`get_highest_counter` yields 0. -/
def initRepo (id : String) : Repo :=
  { id := id, curCounter := 0, store := [] }

/-- Side effects of a successful repository operation: the new state, the
entries handed to `indexer.index_message(s)`, and the argument of each
`message_broadcast` call. -/
structure OpEffects where
  state : Repo
  indexed : List DbMessage
  broadcasts : List (List DbMessage)
deriving Repr, DecidableEq

/-- `Repository::save_message` (repository.rs lines 45-81).  The peer-id
check and the counter check precede every write; on the `counter == 0`
branch the counter is assigned `cur_counter + 1`.  The stored entry is
indexed and broadcast as a one-element batch. -/
def save_message (st : Repo) (message : DbMessage) : Except String OpEffects :=
  if message.peer_id ≠ st.id then
    .error "Message peer_id does not match repository id"
  else if message.counter = 0 then
    let m := { message with counter := st.curCounter + 1 }
    .ok { state := { st with curCounter := st.curCounter + 1, store := st.store ++ [m] },
          indexed := [m],
          broadcasts := [[m]] }
  else if message.counter ≠ st.curCounter + 1 then
    .error "Message counter is invalid"
  else
    .ok { state := { st with curCounter := st.curCounter + 1, store := st.store ++ [message] },
          indexed := [message],
          broadcasts := [[message]] }

/-- The validation loop of `Repository::insert_message_batch`: element `i`
of the filtered batch must carry the repository id and counter
`counter + i + 1`; the first offender aborts with the source's error. -/
def validateBatch (repoId : String) (counter : Nat) :
    List DbMessage → Nat → Except String Unit
  | [], _ => .ok ()
  | m :: rest, i =>
    if m.peer_id ≠ repoId then
      .error "Message peer_id does not match repository id"
    else if m.counter ≠ counter + i + 1 then
      .error "Message counter is invalid"
    else
      validateBatch repoId counter rest (i + 1)

/-- `Repository::insert_message_batch` (repository.rs lines 87-126): empty
batches are a no-op, entries with `counter ≤ cur_counter` are filtered
out, the remaining suffix is validated, persisted in one transaction,
counted into `cur_counter`, indexed, and broadcast. -/
def insert_message_batch (st : Repo) (messages : List DbMessage) :
    Except String OpEffects :=
  if messages.isEmpty then
    .ok { state := st, indexed := [], broadcasts := [] }
  else
    let counter := st.curCounter
    let filtered := messages.filter (fun m => counter < m.counter)
    match validateBatch st.id counter filtered 0 with
    | .error e => .error e
    | .ok _ =>
      if filtered.length = 0 then
        .ok { state := st, indexed := [], broadcasts := [] }
      else
        .ok { state := { st with curCounter := counter + filtered.length,
                                 store := st.store ++ filtered },
              indexed := filtered,
              broadcasts := [filtered] }

/-- One repository call, as interleaved by the sync engine: a local append
or a remote batch. -/
inductive RepoOp where
  | own (m : DbMessage)
  | batch (msgs : List DbMessage)
deriving Repr

/-- The repository state after one call; a rejected call mutates nothing
(every `return Err` in the source precedes the first write). -/
def stepRepo (st : Repo) : RepoOp → Repo
  | .own m =>
    match save_message st m with
    | .ok e => e.state
    | .error _ => st
  | .batch msgs =>
    match insert_message_batch st msgs with
    | .ok e => e.state
    | .error _ => st

/-- A whole interleaving of repository calls. -/
def runRepo (st : Repo) (ops : List RepoOp) : Repo :=
  ops.foldl stepRepo st

/-- The per-repository counter invariant: stored counters, in insertion
order, are exactly `1, 2, …, cur_counter`. -/
def counterInv (st : Repo) : Prop :=
  st.store.map (fun m => m.counter) = List.range' 1 st.curCounter

/-! ### Log store query (`message_database.rs`) -/

/-- Ascending-counter comparison used to model the SQL `ORDER BY counter`. -/
def counterLE (a b : DbMessage) : Prop := a.counter ≤ b.counter

instance : DecidableRel counterLE := fun a b => Nat.decLe a.counter b.counter

instance : IsTotal DbMessage counterLE := ⟨fun a b => Nat.le_total a.counter b.counter⟩

instance : IsTrans DbMessage counterLE := ⟨fun _ _ _ => Nat.le_trans⟩

/-- `MessageDatabase::get_after` (message_database.rs lines 127-154):
`SELECT … WHERE peer_id = ? AND counter >= ? ORDER BY counter`.  The table
contents are the list `db`; the result is the matching rows sorted by
counter. -/
def get_after (db : List DbMessage) (peer_id : String) (counter : Nat) :
    List DbMessage :=
  List.insertionSort counterLE
    (db.filter (fun m => m.peer_id = peer_id ∧ counter ≤ m.counter))

/-- The `BatchMessageRequest` branch of `SyncEngine::handle_request`
(sync_engine.rs lines 214-249): when the caller's counter is at least
ours, reply with no messages, otherwise with
`get_messages(their_counter) = db.get_after(id, their_counter)`. -/
def batchMessageResponse (st : Repo) (their_counter : Nat) : List DbMessage :=
  if their_counter ≥ st.curCounter then []
  else get_after st.store st.id their_counter

/-! ### Compare handler (`sync_engine.rs` CompareRequest branch) -/

/-- `ComparePayload` from the wire protocol: the counter is an `i32`. -/
structure ComparePayload where
  counter : Int
  peer_id : String
deriving Repr, DecidableEq

/-- `RepoState` from repository_manager.rs. -/
structure RepoState where
  counter : Nat
  peer_id : String
deriving Repr, DecidableEq

/-- The `as i32` narrowing the handler applies to a `u64` counter. -/
def i32ofNat (n : Nat) : Int :=
  ((n : Int) + 2 ^ 31) % 2 ^ 32 - 2 ^ 31

/-- The inner loop of the CompareRequest branch (sync_engine.rs lines
253-268) for one local state: scans the request payloads tracking
`spotted`; on the first matching payload whose counter is below ours the
loop pushes and breaks.  Returns (spotted, pushed). -/
def compareInner (state : RepoState) : List ComparePayload → Bool → Bool × Bool
  | [], spotted => (spotted, false)
  | o :: rest, spotted =>
    if o.peer_id = state.peer_id then
      if o.counter < i32ofNat state.counter then (true, true)
      else compareInner state rest true
    else compareInner state rest spotted

/-- The CompareRequest branch of `SyncEngine::handle_request`
(sync_engine.rs lines 250-277): a state's peer id enters the response if
the inner loop pushed, or if no payload mentioned it at all. -/
def compareHandler : List RepoState → List ComparePayload → List String
  | [], _ => []
  | s :: rest, req =>
    let res := compareInner s req false
    if res.2 || !res.1 then s.peer_id :: compareHandler rest req
    else compareHandler rest req

/-! ### Messages handler (`sync_engine.rs` Messages branch) -/

/-- A frame sent back on the stream by the Messages branch. -/
inductive WireEvent where
  | messageAccept (counter : Int)
  | eof
deriving Repr, DecidableEq

/-- The Messages branch of `SyncEngine::handle_request` (sync_engine.rs
lines 168-192): attempt `insert_message_batch`; an error is only logged;
then always send `MessageAccept { counter: guard.get_counter() as i32 }`
followed by EOF.  (Saving an attached peer identity touches the peer
table only and is omitted.) -/
def handle_request_messages (st : Repo) (msgs : List DbMessage) :
    Repo × List WireEvent :=
  let st' :=
    match insert_message_batch st msgs with
    | .ok e => e.state
    | .error _ => st
  (st', [WireEvent.messageAccept (i32ofNat st'.curCounter), WireEvent.eof])

/-! ### Broadcast (`sync_engine.rs` message_broadcast) -/

/-- `SyncEngine::message_broadcast` (sync_engine.rs lines 314-334).  The
source reads `stored_messages[0]` before any emptiness check: on an empty
list that indexing panics, modelled as `none`.  Otherwise, a foreign
author returns early with no tasks, and a local author enqueues one
`MessageTask` per currently-live peer. -/
def message_broadcast (selfId : String) (currentPeers : List String)
    (stored_messages : List DbMessage) : Option (List String) :=
  match stored_messages with
  | [] => none
  | m :: _ =>
    if selfId ≠ m.peer_id then some []
    else some currentPeers

/-! ### Repository manager and the global order counter
(`repository_manager.rs`) -/

/-- `RepositoryManager::update_counter`: raise the guarded counter to the
message's order if larger. -/
def update_counter (cnt : Nat) (message : DbMessage) : Nat :=
  if message.order > cnt then message.order else cnt

/-- `RepositoryManager::update_counter_many`: fold `update_counter` over a
batch. -/
def update_counter_many (cnt : Nat) (messages : List DbMessage) : Nat :=
  messages.foldl update_counter cnt

/-- A whole node: the manager's `counter_lock` value, the per-peer
repositories, and a global append log.  Each log entry is tagged `true`
when it entered through `add_own_message` and `false` when it entered
through a remote batch. -/
structure SysState where
  mgr : Nat
  repos : List (String × Repo)
  log : List (Bool × DbMessage)
deriving Repr

/-- `RepositoryManager::get_or_create_repository`: look up, else create a
fresh repository for the peer. -/
def getOrCreateRepo (repos : List (String × Repo)) (peer_id : String) :
    Repo × List (String × Repo) :=
  match repos.lookup peer_id with
  | some r => (r, repos)
  | none => (initRepo peer_id, repos ++ [(peer_id, initRepo peer_id)])

/-- Replace a repository in the association list. -/
def setRepo : List (String × Repo) → String → Repo → List (String × Repo)
  | [], pid, r => [(pid, r)]
  | (k, v) :: rest, pid, r =>
    if k = pid then (k, r) :: rest else (k, v) :: setRepo rest pid r

/-- `RepositoryManager::add_own_message` (repository_manager.rs lines
62-71): take the counter lock, increment it, stamp the message's `order`
with the new value, then route to the peer's repository, whose
`save_message` calls `update_counter` back on the manager (a no-op here
since `message.order` equals the fresh counter).  On a repository error
the manager counter stays incremented. -/
def add_own_message (sys : SysState) (message : DbMessage) : SysState :=
  let cnt := sys.mgr + 1
  let msg := { message with order := cnt }
  let pr := getOrCreateRepo sys.repos msg.peer_id
  match save_message pr.1 msg with
  | .ok e =>
    { mgr := update_counter cnt msg,
      repos := setRepo pr.2 msg.peer_id e.state,
      log := sys.log ++ e.indexed.map (fun m => (true, m)) }
  | .error _ => { mgr := cnt, repos := pr.2, log := sys.log }

/-- A remote batch arriving for `peer_id`: `get_repository` then
`Repository::insert_message_batch`, which calls the manager's
`update_counter_many` on the filtered suffix — the stored `order` values
are the ones carried in the batch; the manager only raises its counter to
their maximum. -/
def apply_remote_batch (sys : SysState) (peer_id : String)
    (msgs : List DbMessage) : SysState :=
  let pr := getOrCreateRepo sys.repos peer_id
  match insert_message_batch pr.1 msgs with
  | .ok e =>
    { mgr := update_counter_many sys.mgr e.indexed,
      repos := setRepo pr.2 peer_id e.state,
      log := sys.log ++ e.indexed.map (fun m => (false, m)) }
  | .error _ => { sys with repos := pr.2 }

/-- One node-level append operation. -/
inductive SysOp where
  | own (m : DbMessage)
  | batch (peer_id : String) (msgs : List DbMessage)
deriving Repr

/-- Apply one node-level operation. -/
def stepSys (sys : SysState) : SysOp → SysState
  | .own m => add_own_message sys m
  | .batch pid msgs => apply_remote_batch sys pid msgs

/-- Apply a sequence of node-level operations. -/
def runSys (sys : SysState) (ops : List SysOp) : SysState :=
  ops.foldl stepSys sys

/-- A node started over an empty store: `MAX(order)` is 0. -/
def initSys : SysState := { mgr := 0, repos := [], log := [] }

/-- The `order` values of entries of a log, in first-append sequence. -/
def ordersOfLog (log : List (Bool × DbMessage)) : List Nat :=
  log.map (fun p => p.2.order)

/-- The `order` values stored by `add_own_message` appends only. -/
def ownOrdersOfLog (log : List (Bool × DbMessage)) : List Nat :=
  (log.filter (fun p => p.1)).map (fun p => p.2.order)

/-- The `order` values of all stored entries in first-append sequence. -/
def allOrders (sys : SysState) : List Nat := ordersOfLog sys.log

/-- The `order` values of locally appended entries in append sequence. -/
def ownOrders (sys : SysState) : List Nat := ownOrdersOfLog sys.log

/-- The manager-counter invariant: the counter dominates every
locally-assigned order, and those orders strictly increase. -/
def mgrInv (sys : SysState) : Prop :=
  (∀ o ∈ ownOrders sys, o ≤ sys.mgr) ∧
    List.Pairwise (· < ·) (ownOrders sys)

/-! ### Dial path (`dialer.rs`, `peer_pool.rs`) -/

/-- `Handshake` from handshake.rs: the derived symmetric key and the
remote long-term verifying key, both byte strings. -/
structure Handshake where
  symmetric_key : List Nat
  their_pub_key : List Nat
deriving Repr, DecidableEq

/-- One lowercase hex digit. -/
def hexChar (n : Nat) : Char :=
  if n < 10 then Char.ofNat (48 + n) else Char.ofNat (87 + n)

/-- Lowercase hex of a byte string, as `hex::encode`. -/
def hexOfBytes (bytes : List Nat) : String :=
  String.mk (bytes.foldr (fun b acc => hexChar (b / 16) :: hexChar (b % 16) :: acc) [])

/-- `Handshake::hex_key`. -/
def Handshake.hex_key (h : Handshake) : String := hexOfBytes h.their_pub_key

/-- `Dialer::dial` (dialer.rs lines 43-60): look up the address for
`peer_id`, connect, run `write_handshake` (whose result is `hs`), wrap the
socket with the derived key, and return the session.  The handshake's
`their_pub_key` is never compared against `peer_id`, here or in
`PeerPool::get` (peer_pool.rs lines 89-142), which stores the returned
session under `peer_id` unconditionally. -/
def dial (addrs : List (String × String)) (peer_id : String)
    (hs : Handshake) : Except String Handshake :=
  match addrs.lookup peer_id with
  | none => .error ("failed to find addr for peer_id " ++ peer_id)
  | some _ => .ok hs

/-! ### Handshake (`handshake.rs`) -/

/-- The external cryptographic primitives the handshake calls: X25519
(`xpub`, `dh`), HKDF (`hkdfExpand salt ikm info`), and Ed25519 (`sign`,
`vpub`, `verify vk msg sig`).  `Xsk` are ephemeral X25519 secrets, `Esk`
long-term Ed25519 signing keys; public keys and signatures are byte
strings. -/
structure HsPrims (Xsk Esk : Type) where
  xpub : Xsk → List Nat
  dh : Xsk → List Nat → List Nat
  hkdfExpand : Option (List Nat) → List Nat → List Nat → List Nat
  sign : Esk → List Nat → List Nat
  vpub : Esk → List Nat
  verify : List Nat → List Nat → List Nat → Bool

/-- The HKDF info string `b"p2p-chat"`. -/
def DERIVATION_TEXT : List Nat := [112, 50, 112, 45, 99, 104, 97, 116]

/-- `read_handshake` (handshake.rs lines 21-74), the acceptor side, as a
function of the bytes read from the transport.  It first reads the
dialer's ephemeral key, then writes its own ephemeral key, verifying key
and transcript signature (the first component of the result, computed
before the dialer's authentication message arrives), then reads and
verifies the dialer's verifying key and signature, and finally derives
`HKDF-SHA256(salt = none, ikm = X25519 shared secret, info = "p2p-chat")`. -/
def read_handshake {Xsk Esk : Type} (P : HsPrims Xsk Esk)
    (my_signing_key : Esk) (my_eph : Xsk)
    (their_ephemeral_pub_bytes their_verifying_key_bytes their_signature_bytes :
      List Nat) :
    (List Nat × List Nat × List Nat) × Except String Handshake :=
  let my_ephemeral_pub := P.xpub my_eph
  let transcript := their_ephemeral_pub_bytes ++ my_ephemeral_pub
  let my_signature := P.sign my_signing_key transcript
  let my_verifying_key := P.vpub my_signing_key
  let sent := (my_ephemeral_pub, my_verifying_key, my_signature)
  (sent,
    if P.verify their_verifying_key_bytes transcript their_signature_bytes then
      let shared := P.dh my_eph their_ephemeral_pub_bytes
      let key := P.hkdfExpand none shared DERIVATION_TEXT
      .ok { symmetric_key := key, their_pub_key := their_verifying_key_bytes }
    else
      .error "signature verify fail")

/-- `write_handshake` (handshake.rs lines 76-130), the dialer side: it
sends its ephemeral key (`P.xpub my_eph`), reads the acceptor's ephemeral
key, verifying key and signature, verifies the signature over the
transcript `d_pk ++ a_pk`, replies with its own verifying key and
transcript signature (first component), and derives the same HKDF key. -/
def write_handshake {Xsk Esk : Type} (P : HsPrims Xsk Esk)
    (my_signing_key : Esk) (my_eph : Xsk)
    (their_ephemeral_pub_bytes their_verifying_key_bytes their_signature_bytes :
      List Nat) :
    Except String ((List Nat × List Nat) × Handshake) :=
  let my_ephemeral_pub := P.xpub my_eph
  let transcript := my_ephemeral_pub ++ their_ephemeral_pub_bytes
  if P.verify their_verifying_key_bytes transcript their_signature_bytes then
    let my_signature := P.sign my_signing_key transcript
    let my_verifying_key := P.vpub my_signing_key
    let shared := P.dh my_eph their_ephemeral_pub_bytes
    let key := P.hkdfExpand none shared DERIVATION_TEXT
    .ok ((my_verifying_key, my_signature),
         { symmetric_key := key, their_pub_key := their_verifying_key_bytes })
  else
    .error "signature verify fail"

/-- A paired run of `write_handshake` (dialer `d`) against
`read_handshake` (acceptor `a`) over a reliable duplex stream: each side
receives exactly the bytes the other sent. -/
def runHandshake {Xsk Esk : Type} (P : HsPrims Xsk Esk)
    (d_sign a_sign : Esk) (d_eph a_eph : Xsk) :
    Except String (Handshake × Handshake) :=
  let d_pk := P.xpub d_eph
  let aSent := (read_handshake P a_sign a_eph d_pk [] []).1
  match write_handshake P d_sign d_eph aSent.1 aSent.2.1 aSent.2.2 with
  | .error e => .error e
  | .ok (dSent, hd) =>
    match (read_handshake P a_sign a_eph d_pk dSent.1 dSent.2).2 with
    | .error e => .error e
    | .ok ha => .ok (hd, ha)

/-! ### Concrete inputs used by counterexamples and witnesses -/

/-- A stored entry with counter 1 for peer `a`. -/
def exM1 : DbMessage :=
  { counter := 1, id := "m1", order := 1, timestamp := 0, payload := [], peer_id := "a" }

/-- A stored entry with counter 2 for peer `a`. -/
def exM2 : DbMessage :=
  { counter := 2, id := "m2", order := 2, timestamp := 0, payload := [], peer_id := "a" }

/-- A repository for peer `a` holding counters 1 and 2. -/
def exRepo : Repo := { id := "a", curCounter := 2, store := [exM1, exM2] }

/-- The batch that produced `exRepo`, redelivered. -/
def exBatch : List DbMessage := [exM1, exM2]

/-- A stale entry (counter 1 already applied) authored by a foreign peer. -/
def exWrongPeer : DbMessage :=
  { counter := 1, id := "w1", order := 1, timestamp := 0, payload := [], peer_id := "x" }

/-- A fresh entry (counter above `exRepo`'s) authored by a foreign peer. -/
def exMismatch : DbMessage :=
  { counter := 3, id := "w2", order := 3, timestamp := 0, payload := [], peer_id := "x" }

/-- A batch for peer `a` whose counters skip 3. -/
def exGapBatch : List DbMessage :=
  [{ counter := 4, id := "g4", order := 4, timestamp := 0, payload := [], peer_id := "a" }]

/-- A user message, pre-assignment (`MessageBuilder` sets counter 0, order 0). -/
def exOwnMsg : DbMessage :=
  { counter := 0, id := "cm1", order := 0, timestamp := 0, payload := [], peer_id := "a" }

/-- A remote entry for peer `b` carrying the remote-assigned order 1. -/
def exRemoteMsg : DbMessage :=
  { counter := 1, id := "cm2", order := 1, timestamp := 0, payload := [], peer_id := "b" }

/-- `exOwnMsg` as stored by `save_message` (counter assigned to 1). -/
def exOwnStored : DbMessage := { exOwnMsg with counter := 1 }

/-- The effects of `save_message (initRepo "a") exOwnMsg`. -/
def exSaveEff : OpEffects :=
  { state := { id := "a", curCounter := 1, store := [exOwnStored] },
    indexed := [exOwnStored], broadcasts := [[exOwnStored]] }

/-- The effects of `insert_message_batch (initRepo "b") [exRemoteMsg]`. -/
def exBatchEff : OpEffects :=
  { state := { id := "b", curCounter := 1, store := [exRemoteMsg] },
    indexed := [exRemoteMsg], broadcasts := [[exRemoteMsg]] }

/-- The C1 counterexample run: one local append, then one remote batch. -/
def exC1Ops : List SysOp := [SysOp.own exOwnMsg, SysOp.batch "b" [exRemoteMsg]]

/-- A handshake result whose remote key is 32 zero bytes. -/
def exHs : Handshake :=
  { symmetric_key := List.replicate 32 7, their_pub_key := List.replicate 32 0 }

/-- A concrete instantiation of the handshake primitives: public keys are
singleton byte strings, `dh a pk = [a * pk₀]` (commutative), signatures
prepend the signing key, verification rebuilds them. -/
def hsPrimsEx : HsPrims Nat Nat :=
  { xpub := fun a => [a],
    dh := fun a pk => [a * pk.headD 0],
    hkdfExpand := fun _ ikm info => ikm ++ info,
    sign := fun sk m => sk :: m,
    vpub := fun sk => [sk],
    verify := fun vk m sig => sig == vk.headD 0 :: m }


/-! ### Helper lemmas -/

theorem validateBatch_ok (repoId : String) (counter : Nat) :
    ∀ (l : List DbMessage) (i : Nat),
      validateBatch repoId counter l i = Except.ok () →
      (∀ m ∈ l, m.peer_id = repoId) ∧
        l.map (fun m => m.counter) = List.range' (counter + i + 1) l.length := by
  intro l
  induction l with
  | nil => intro i _; simp [List.range']
  | cons m rest ih =>
    intro i h
    rw [validateBatch] at h
    by_cases h1 : m.peer_id = repoId
    · rw [if_neg (not_not_intro h1)] at h
      by_cases h2 : m.counter = counter + i + 1
      · rw [if_neg (not_not_intro h2)] at h
        obtain ⟨hp, hm⟩ := ih (i + 1) h
        refine ⟨fun x hx => ?_, ?_⟩
        · rcases List.mem_cons.1 hx with hx | hx
          · rw [hx]; exact h1
          · exact hp x hx
        · rw [List.map_cons, hm, List.length_cons, List.range'_succ, h2]
          have he : counter + (i + 1) + 1 = counter + i + 1 + 1 := by omega
          rw [he]
      · rw [if_pos h2] at h
        simp at h
    · rw [if_pos h1] at h
      simp at h

theorem stepRepo_inv (st : Repo) (op : RepoOp) (h : counterInv st) :
    counterInv (stepRepo st op) := by
  have hconc : List.range' 1 (st.curCounter + 1) =
      List.range' 1 st.curCounter ++ [st.curCounter + 1] := by
    have := List.range'_1_concat 1 st.curCounter
    rw [Nat.add_comm 1 st.curCounter] at this
    exact this
  cases op with
  | own m =>
    simp only [stepRepo, save_message]
    by_cases hp : m.peer_id ≠ st.id
    · rw [if_pos hp]; exact h
    · rw [if_neg hp]
      by_cases hc : m.counter = 0
      · rw [if_pos hc]
        simp only [counterInv, List.map_append, List.map_cons, List.map_nil] at *
        rw [h, ← hconc]
      · rw [if_neg hc]
        by_cases hc2 : m.counter ≠ st.curCounter + 1
        · rw [if_pos hc2]; exact h
        · rw [if_neg hc2]
          push_neg at hc2
          simp only [counterInv, List.map_append, List.map_cons, List.map_nil] at *
          rw [h, hc2, ← hconc]
  | batch msgs =>
    simp only [stepRepo, insert_message_batch]
    by_cases he : msgs.isEmpty
    · rw [if_pos he]; exact h
    · rw [if_neg he]
      cases hv : validateBatch st.id st.curCounter
          (msgs.filter (fun m => st.curCounter < m.counter)) 0 with
      | error e => exact h
      | ok u =>
        cases u
        by_cases hl : (msgs.filter (fun m => st.curCounter < m.counter)).length = 0
        · rw [if_pos hl]; exact h
        · rw [if_neg hl]
          obtain ⟨_, hm⟩ := validateBatch_ok st.id st.curCounter _ 0 hv
          simp only [counterInv, List.map_append] at *
          rw [h, hm]
          have h0 : st.curCounter + 0 + 1 = 1 + st.curCounter := by omega
          have happ := List.range'_append_1 1 st.curCounter
              ((msgs.filter (fun m => st.curCounter < m.counter)).length)
          rw [h0, happ]
          congr 1
          omega

theorem runRepo_inv (ops : List RepoOp) :
    ∀ st, counterInv st → counterInv (runRepo st ops) := by
  induction ops with
  | nil => intro st h; exact h
  | cons op rest ih =>
    intro st h
    exact ih _ (stepRepo_inv st op h)

theorem message_broadcast_cons_isSome (sid : String) (peers : List String)
    (x : DbMessage) (l : List DbMessage) :
    (message_broadcast sid peers (x :: l)).isSome := by
  simp only [message_broadcast]
  split <;> rfl

theorem save_message_broadcasts (st : Repo) (m : DbMessage) (e : OpEffects)
    (h : save_message st m = Except.ok e) : ∃ x, e.broadcasts = [[x]] := by
  simp only [save_message] at h
  by_cases h1 : m.peer_id ≠ st.id
  · rw [if_pos h1] at h; cases h
  · rw [if_neg h1] at h
    by_cases h2 : m.counter = 0
    · rw [if_pos h2] at h
      cases h
      exact ⟨_, rfl⟩
    · rw [if_neg h2] at h
      by_cases h3 : m.counter ≠ st.curCounter + 1
      · rw [if_pos h3] at h; cases h
      · rw [if_neg h3] at h
        cases h
        exact ⟨_, rfl⟩

theorem insert_message_batch_broadcasts (st : Repo) (msgs : List DbMessage)
    (e : OpEffects) (h : insert_message_batch st msgs = Except.ok e) :
    e.broadcasts = [] ∨ ∃ x l, e.broadcasts = [x :: l] := by
  simp only [insert_message_batch] at h
  by_cases he : msgs.isEmpty
  · rw [if_pos he] at h; cases h; exact Or.inl rfl
  · rw [if_neg he] at h
    cases hv : validateBatch st.id st.curCounter
        (msgs.filter (fun m => st.curCounter < m.counter)) 0 with
    | error er => rw [hv] at h; cases h
    | ok u =>
      cases u
      rw [hv] at h
      by_cases hl : (msgs.filter (fun m => st.curCounter < m.counter)).length = 0
      · rw [if_pos hl] at h; cases h; exact Or.inl rfl
      · rw [if_neg hl] at h
        cases h
        cases hfl : msgs.filter (fun m => st.curCounter < m.counter) with
        | nil => rw [hfl] at hl; simp at hl
        | cons x l => exact Or.inr ⟨x, l, rfl⟩

/-! ### Claim theorems -/

/-- C4: under any interleaving of `save_message`, `insert_message_batch`,
and repeated delivery of the same batch, the stored counters of a
repository are exactly the sequence 1, 2, …, N with no gaps and no
duplicates, where N is the in-memory counter. -/
theorem counters_dense (id : String) (ops : List RepoOp) :
    (runRepo (initRepo id) ops).store.map (fun m => m.counter) =
      List.range' 1 (runRepo (initRepo id) ops).curCounter :=
  runRepo_inv ops (initRepo id) (by simp [counterInv, initRepo])

/-- C5: re-applying a fully applied batch (every counter at most the
current one) returns Ok, writes nothing, indexes and broadcasts nothing,
and leaves the counter unchanged. -/
theorem insert_message_batch_idempotent (st : Repo) (E : List DbMessage)
    (h : ∀ m ∈ E, m.counter ≤ st.curCounter) :
    insert_message_batch st E =
      Except.ok { state := st, indexed := [], broadcasts := [] } := by
  simp only [insert_message_batch]
  by_cases he : E.isEmpty
  · rw [if_pos he]
  · rw [if_neg he]
    have hf : E.filter (fun m => st.curCounter < m.counter) = [] := by
      rw [List.filter_eq_nil_iff]
      intro a ha
      simpa using Nat.not_lt.2 (h a ha)
    rw [hf]
    simp [validateBatch]

/-- C5 witness: redelivering the batch that built `exRepo` is a no-op. -/
theorem insert_message_batch_idempotent_witness :
    (∀ m ∈ exBatch, m.counter ≤ exRepo.curCounter) ∧
      insert_message_batch exRepo exBatch =
        Except.ok { state := exRepo, indexed := [], broadcasts := [] } :=
  ⟨by decide, insert_message_batch_idempotent exRepo exBatch (by decide)⟩

/-- C10 counterexample: a batch containing only a message whose `peer_id`
differs from the repository's id is not rejected when its counter is at
or below the current counter — the counter filter removes it and
`insert_message_batch` returns Ok. -/
theorem stale_wrong_peer_not_rejected :
    exWrongPeer.peer_id ≠ exRepo.id ∧
      insert_message_batch exRepo [exWrongPeer] =
        Except.ok { state := exRepo, indexed := [], broadcasts := [] } := by
  constructor
  · decide
  · rfl

/-- C10 amended: `save_message` rejects any message with a foreign
`peer_id`; `insert_message_batch` rejects any batch containing a foreign
message among the entries that survive the counter filter
(`counter > cur_counter`); both rejections are atomic — the state is
unchanged. -/
theorem peer_mismatch_rejected (st : Repo) (m : DbMessage)
    (msgs : List DbMessage) (hm : m.peer_id ≠ st.id)
    (hb : ∃ x ∈ msgs, st.curCounter < x.counter ∧ x.peer_id ≠ st.id) :
    save_message st m = Except.error "Message peer_id does not match repository id" ∧
      (∃ e, insert_message_batch st msgs = Except.error e) ∧
      stepRepo st (RepoOp.own m) = st ∧
      stepRepo st (RepoOp.batch msgs) = st := by
  have hsave : save_message st m =
      Except.error "Message peer_id does not match repository id" := by
    simp only [save_message]
    rw [if_pos hm]
  have hins : ∃ e, insert_message_batch st msgs = Except.error e := by
    obtain ⟨x, hx, hcx, hpx⟩ := hb
    have hne : ¬ msgs.isEmpty := by
      cases msgs with
      | nil => cases hx
      | cons a l => simp
    simp only [insert_message_batch]
    rw [if_neg hne]
    cases hv : validateBatch st.id st.curCounter
        (msgs.filter (fun m => st.curCounter < m.counter)) 0 with
    | error e => exact ⟨e, rfl⟩
    | ok u =>
      cases u
      exfalso
      have hxf : x ∈ msgs.filter (fun m => st.curCounter < m.counter) :=
        List.mem_filter.2 ⟨hx, by simpa using hcx⟩
      exact hpx ((validateBatch_ok st.id st.curCounter _ 0 hv).1 x hxf)
  obtain ⟨e, he⟩ := hins
  refine ⟨hsave, ⟨e, he⟩, ?_, ?_⟩
  · simp [stepRepo, hsave]
  · simp [stepRepo, he]

/-- C10 witness: a fresh foreign-authored entry is rejected by both paths
and the state is untouched. -/
theorem peer_mismatch_rejected_witness :
    (exMismatch.peer_id ≠ exRepo.id ∧
        (∃ x ∈ [exMismatch], exRepo.curCounter < x.counter ∧ x.peer_id ≠ exRepo.id)) ∧
      save_message exRepo exMismatch =
          Except.error "Message peer_id does not match repository id" ∧
        (∃ e, insert_message_batch exRepo [exMismatch] = Except.error e) ∧
        stepRepo exRepo (RepoOp.own exMismatch) = exRepo ∧
        stepRepo exRepo (RepoOp.batch [exMismatch]) = exRepo :=
  ⟨⟨by decide, by decide⟩,
    peer_mismatch_rejected exRepo exMismatch [exMismatch] (by decide)
      ⟨exMismatch, by decide, by decide, by decide⟩⟩

/-- C2 (code bug): `Dialer::dial` looks up the address for `peer_id`,
runs `write_handshake`, and returns the session; the handshake's
long-term key is never compared with `peer_id` — dialing "ff" while the
remote's verifying key hex-encodes to sixty-four zeros still succeeds. -/
theorem dial_skips_key_verification :
    dial [("ff", "127.0.0.1:4000")] "ff" exHs = Except.ok exHs ∧
      exHs.hex_key ≠ "ff" :=
  ⟨rfl, by decide⟩

/-- C7: the Messages branch always replies `MessageAccept` carrying the
post-apply committed counter followed by EOF, even when
`insert_message_batch` fails; and on a rejected batch the repository is
unchanged, so the reported counter is the pre-request counter. -/
theorem handle_request_messages_spec (st : Repo) (msgs : List DbMessage) :
    (handle_request_messages st msgs).2 =
      [WireEvent.messageAccept
          (i32ofNat (handle_request_messages st msgs).1.curCounter),
        WireEvent.eof] ∧
    ∀ e, insert_message_batch st msgs = Except.error e →
      (handle_request_messages st msgs).1 = st ∧
      (handle_request_messages st msgs).2 =
        [WireEvent.messageAccept (i32ofNat st.curCounter), WireEvent.eof] := by
  refine ⟨rfl, ?_⟩
  intro e he
  constructor
  · simp [handle_request_messages, he]
  · simp [handle_request_messages, he]

/-- C7 witness: a batch with counters {4} against a repository at counter
2 is rejected; the reply reports counter 2 and the state is unchanged. -/
theorem handle_request_messages_spec_witness :
    insert_message_batch exRepo exGapBatch =
        Except.error "Message counter is invalid" ∧
      (handle_request_messages exRepo exGapBatch).1 = exRepo ∧
      (handle_request_messages exRepo exGapBatch).2 =
        [WireEvent.messageAccept (i32ofNat exRepo.curCounter), WireEvent.eof] :=
  ⟨rfl,
    ((handle_request_messages_spec exRepo exGapBatch).2
      "Message counter is invalid" rfl).1,
    ((handle_request_messages_spec exRepo exGapBatch).2
      "Message counter is invalid" rfl).2⟩

/-- C9: every list `message_broadcast` receives from a repository call is
non-empty — `save_message` passes a one-element list and
`insert_message_batch` broadcasts only a non-empty filtered suffix — so
the unguarded `stored_messages[0]` read never panics on these paths. -/
theorem broadcast_callsites_nonempty (st : Repo) (m : DbMessage)
    (msgs : List DbMessage) (selfId : String) (peers : List String) :
    (∀ e, save_message st m = Except.ok e →
      ∀ b ∈ e.broadcasts, (message_broadcast selfId peers b).isSome) ∧
    (∀ e, insert_message_batch st msgs = Except.ok e →
      ∀ b ∈ e.broadcasts, (message_broadcast selfId peers b).isSome) := by
  constructor
  · intro e he b hb
    obtain ⟨x, hx⟩ := save_message_broadcasts st m e he
    rw [hx] at hb
    rw [List.mem_singleton.1 hb]
    exact message_broadcast_cons_isSome selfId peers x []
  · intro e he b hb
    rcases insert_message_batch_broadcasts st msgs e he with h0 | ⟨x, l, hxl⟩
    · rw [h0] at hb; cases hb
    · rw [hxl] at hb
      rw [List.mem_singleton.1 hb]
      exact message_broadcast_cons_isSome selfId peers x l

/-- C9 witness: both repository paths evaluated on concrete appends hand
`message_broadcast` non-empty lists. -/
theorem broadcast_callsites_nonempty_witness :
    save_message (initRepo "a") exOwnMsg = Except.ok exSaveEff ∧
      (message_broadcast "a" ["q"] [exOwnStored]).isSome ∧
      insert_message_batch (initRepo "b") [exRemoteMsg] = Except.ok exBatchEff ∧
      (message_broadcast "a" ["q"] [exRemoteMsg]).isSome :=
  ⟨rfl,
    (broadcast_callsites_nonempty (initRepo "a") exOwnMsg [exRemoteMsg] "a"
        ["q"]).1 exSaveEff rfl [exOwnStored] (List.mem_singleton.2 rfl),
    rfl,
    (broadcast_callsites_nonempty (initRepo "b") exOwnMsg [exRemoteMsg] "a"
        ["q"]).2 exBatchEff rfl [exRemoteMsg] (List.mem_singleton.2 rfl)⟩


/-- C3 counterexample: with `exRepo` committed at counter 2 and the
caller at counter 1, the response contains the entry with counter 1 —
`get_after` selects `counter >= ?`, not strictly greater. -/
theorem get_after_includes_equal_counter :
    batchMessageResponse exRepo 1 = [exM1, exM2] ∧
      (1 : Nat) < exRepo.curCounter ∧ exM1.counter = 1 :=
  ⟨rfl, by decide, rfl⟩

/-- C3 amended: `get_after(c)` returns exactly the stored entries of the
peer with counter at least `c` (`>=`), in ascending counter order, and
the BatchMessageRequest branch returns `get_after(my_counter)` whenever
the caller's counter is below the committed counter. -/
theorem get_after_ge_spec (db : List DbMessage) (pid : String) (c : Nat)
    (st : Repo) (h : c < st.curCounter) :
    (get_after db pid c).Perm
        (db.filter (fun m => m.peer_id = pid ∧ c ≤ m.counter)) ∧
      List.Sorted counterLE (get_after db pid c) ∧
      batchMessageResponse st c = get_after st.store st.id c := by
  refine ⟨List.perm_insertionSort counterLE _,
    List.sorted_insertionSort counterLE _, ?_⟩
  simp only [batchMessageResponse]
  rw [if_neg (by omega : ¬ c ≥ st.curCounter)]

/-- C3 witness: the amended statement evaluated at `exRepo` with caller
counter 1. -/
theorem get_after_ge_spec_witness :
    (1 < exRepo.curCounter) ∧
      ((get_after exRepo.store "a" 1).Perm
          (exRepo.store.filter (fun m => m.peer_id = "a" ∧ 1 ≤ m.counter)) ∧
        List.Sorted counterLE (get_after exRepo.store "a" 1) ∧
        batchMessageResponse exRepo 1 = get_after exRepo.store exRepo.id 1) :=
  ⟨by decide, get_after_ge_spec exRepo.store "a" 1 exRepo (by decide)⟩


theorem i32ofNat_eq_of_lt (n : Nat) (h : n < 2 ^ 31) : i32ofNat n = n := by
  unfold i32ofNat
  have hn : (0 : Int) ≤ (n : Int) := Int.natCast_nonneg n
  have hlt : (n : Int) < 2 ^ 31 := by exact_mod_cast h
  have h1 : ((n : Int) + 2 ^ 31) % 2 ^ 32 = (n : Int) + 2 ^ 31 := by
    apply Int.emod_eq_of_lt
    · omega
    · omega
  rw [h1]
  omega

theorem compareInner_eq (s : RepoState) :
    ∀ (l : List ComparePayload) (spotted : Bool),
      compareInner s l spotted =
        (spotted || l.any (fun o => o.peer_id == s.peer_id),
          l.any (fun o => o.peer_id == s.peer_id &&
            decide (o.counter < i32ofNat s.counter))) := by
  intro l
  induction l with
  | nil => intro spotted; simp [compareInner]
  | cons o rest ih =>
    intro spotted
    simp only [compareInner, List.any_cons]
    by_cases h1 : o.peer_id = s.peer_id
    · rw [if_pos h1]
      by_cases h2 : o.counter < i32ofNat s.counter
      · rw [if_pos h2]
        simp [h1, h2]
      · rw [if_neg h2]
        rw [ih true]
        simp [h1, h2]
    · rw [if_neg h1]
      rw [ih spotted]
      have hb : (o.peer_id == s.peer_id) = false := beq_eq_false_iff_ne.2 h1
      simp [hb]

theorem mem_compareHandler (req : List ComparePayload) :
    ∀ (states : List RepoState) (pid : String),
      pid ∈ compareHandler states req ↔
        ∃ s ∈ states, s.peer_id = pid ∧
          (req.any (fun o => o.peer_id == s.peer_id &&
              decide (o.counter < i32ofNat s.counter)) ||
            !(req.any (fun o => o.peer_id == s.peer_id))) = true := by
  intro states
  induction states with
  | nil => intro pid; simp [compareHandler]
  | cons s rest ih =>
    intro pid
    rw [compareHandler]
    rw [show compareInner s req false =
        (req.any (fun o => o.peer_id == s.peer_id),
          req.any (fun o => o.peer_id == s.peer_id &&
            decide (o.counter < i32ofNat s.counter))) from by
      rw [compareInner_eq s req false, Bool.false_or]]
    by_cases hcond : (req.any (fun o => o.peer_id == s.peer_id &&
        decide (o.counter < i32ofNat s.counter)) ||
        !(req.any (fun o => o.peer_id == s.peer_id))) = true
    · rw [if_pos hcond]
      constructor
      · intro h
        rcases List.mem_cons.1 h with h | h
        · exact ⟨s, List.mem_cons_self s rest, h.symm, hcond⟩
        · obtain ⟨x, hx, hxx⟩ := (ih pid).1 h
          exact ⟨x, List.mem_cons_of_mem s hx, hxx⟩
      · rintro ⟨x, hx, hpid, hcondx⟩
        rcases List.mem_cons.1 hx with rfl | hx
        · exact List.mem_cons.2 (Or.inl hpid.symm)
        · exact List.mem_cons_of_mem s.peer_id ((ih pid).2 ⟨x, hx, hpid, hcondx⟩)
    · rw [if_neg hcond]
      constructor
      · intro h
        obtain ⟨x, hx, hxx⟩ := (ih pid).1 h
        exact ⟨x, List.mem_cons_of_mem s hx, hxx⟩
      · rintro ⟨x, hx, hpid, hcondx⟩
        rcases List.mem_cons.1 hx with rfl | hx
        · exact absurd hcondx hcond
        · exact (ih pid).2 ⟨x, hx, hpid, hcondx⟩

/-- C6: the CompareResponse contains exactly the local peer ids the
caller is behind on or does not mention, whenever every local counter
fits in an `i32` (the handler narrows counter values with `as i32`). -/
theorem compareHandler_spec (myStates : List RepoState)
    (req : List ComparePayload)
    (hsmall : ∀ s ∈ myStates, s.counter < 2 ^ 31) (pid : String) :
    pid ∈ compareHandler myStates req ↔
      ∃ s ∈ myStates, s.peer_id = pid ∧
        ((∀ o ∈ req, o.peer_id ≠ s.peer_id) ∨
          ∃ o ∈ req, o.peer_id = s.peer_id ∧ o.counter < (s.counter : Int)) := by
  rw [mem_compareHandler req myStates pid]
  constructor
  · rintro ⟨s, hs, hpid, hcond⟩
    refine ⟨s, hs, hpid, ?_⟩
    rw [i32ofNat_eq_of_lt s.counter (hsmall s hs)] at hcond
    rcases Bool.or_eq_true_iff.1 hcond with ha | hb
    · right
      obtain ⟨o, ho, hoe⟩ := List.any_eq_true.1 ha
      obtain ⟨h1, h2⟩ := Bool.and_eq_true_iff.1 hoe
      exact ⟨o, ho, beq_iff_eq.1 h1, of_decide_eq_true h2⟩
    · left
      intro o ho
      have hfalse : req.any (fun o => o.peer_id == s.peer_id) = false := by
        simpa using hb
      have h3 := List.any_eq_false.1 hfalse o ho
      simpa using h3
  · rintro ⟨s, hs, hpid, hcond⟩
    refine ⟨s, hs, hpid, ?_⟩
    rw [i32ofNat_eq_of_lt s.counter (hsmall s hs)]
    rcases hcond with hnone | ⟨o, ho, hoe, holt⟩
    · apply Bool.or_eq_true_iff.2
      right
      have hfalse : req.any (fun o => o.peer_id == s.peer_id) = false := by
        apply List.any_eq_false.2
        intro o ho
        simpa using hnone o ho
      simp [hfalse]
    · apply Bool.or_eq_true_iff.2
      left
      apply List.any_eq_true.2
      exact ⟨o, ho, Bool.and_eq_true_iff.2 ⟨beq_iff_eq.2 hoe, decide_eq_true holt⟩⟩

/-- C6 witness: states a(2), b(1), c(3) against request [(a,1),(b,1)] —
"a" is included (caller behind), "b" is omitted (caller equal), "c" is
included (caller unaware). -/
theorem compareHandler_spec_witness :
    (∀ s ∈ [RepoState.mk 2 "a", RepoState.mk 1 "b", RepoState.mk 3 "c"],
        s.counter < 2 ^ 31) ∧
      ("a" ∈ compareHandler
          [RepoState.mk 2 "a", RepoState.mk 1 "b", RepoState.mk 3 "c"]
          [ComparePayload.mk 1 "a", ComparePayload.mk 1 "b"] ↔
        ∃ s ∈ [RepoState.mk 2 "a", RepoState.mk 1 "b", RepoState.mk 3 "c"],
          s.peer_id = "a" ∧
            ((∀ o ∈ [ComparePayload.mk 1 "a", ComparePayload.mk 1 "b"],
                o.peer_id ≠ s.peer_id) ∨
              ∃ o ∈ [ComparePayload.mk 1 "a", ComparePayload.mk 1 "b"],
                o.peer_id = s.peer_id ∧ o.counter < (s.counter : Int))) :=
  ⟨by decide,
    compareHandler_spec
      [RepoState.mk 2 "a", RepoState.mk 1 "b", RepoState.mk 3 "c"]
      [ComparePayload.mk 1 "a", ComparePayload.mk 1 "b"] (by decide) "a"⟩


theorem le_update_counter (c : Nat) (m : DbMessage) : c ≤ update_counter c m := by
  unfold update_counter
  split <;> omega

theorem le_update_counter_many (l : List DbMessage) :
    ∀ c, c ≤ update_counter_many c l := by
  induction l with
  | nil => intro c; simp [update_counter_many]
  | cons m rest ih =>
    intro c
    simp only [update_counter_many, List.foldl_cons] at *
    exact le_trans (le_update_counter c m) (ih (update_counter c m))

theorem ownOrdersOfLog_append (l1 l2 : List (Bool × DbMessage)) :
    ownOrdersOfLog (l1 ++ l2) = ownOrdersOfLog l1 ++ ownOrdersOfLog l2 := by
  simp [ownOrdersOfLog, List.filter_append]

theorem ownOrdersOfLog_true (msgs : List DbMessage) :
    ownOrdersOfLog (msgs.map (fun m => (true, m))) =
      msgs.map (fun m => m.order) := by
  induction msgs with
  | nil => rfl
  | cons m rest ih => simp [ownOrdersOfLog, List.filter_cons] at *; exact ih

theorem ownOrdersOfLog_false (msgs : List DbMessage) :
    ownOrdersOfLog (msgs.map (fun m => (false, m))) = [] := by
  induction msgs with
  | nil => rfl
  | cons m rest ih => simp only [List.map_cons]; simp [ownOrdersOfLog, List.filter_cons, ih]

theorem save_message_indexed_order (st : Repo) (m : DbMessage) (e : OpEffects)
    (h : save_message st m = Except.ok e) :
    e.indexed.map (fun x => x.order) = [m.order] := by
  simp only [save_message] at h
  by_cases h1 : m.peer_id ≠ st.id
  · rw [if_pos h1] at h; cases h
  · rw [if_neg h1] at h
    by_cases h2 : m.counter = 0
    · rw [if_pos h2] at h
      cases h
      rfl
    · rw [if_neg h2] at h
      by_cases h3 : m.counter ≠ st.curCounter + 1
      · rw [if_pos h3] at h; cases h
      · rw [if_neg h3] at h
        cases h
        rfl

theorem stepSys_inv (sys : SysState) (op : SysOp) (h : mgrInv sys) :
    mgrInv (stepSys sys op) := by
  obtain ⟨hle, hpw⟩ := h
  cases op with
  | own m =>
    simp only [stepSys, add_own_message]
    cases hsv : save_message (getOrCreateRepo sys.repos m.peer_id).1
        { m with order := sys.mgr + 1 } with
    | error e =>
      show mgrInv
        { mgr := sys.mgr + 1,
          repos := (getOrCreateRepo sys.repos m.peer_id).2,
          log := sys.log }
      refine ⟨fun o ho => ?_, hpw⟩
      show o ≤ sys.mgr + 1
      exact le_trans (hle o ho) (by omega)
    | ok e =>
      show mgrInv
        { mgr := update_counter (sys.mgr + 1) { m with order := sys.mgr + 1 },
          repos := setRepo (getOrCreateRepo sys.repos m.peer_id).2 m.peer_id
            e.state,
          log := sys.log ++ e.indexed.map (fun x => (true, x)) }
      have hidx := save_message_indexed_order _ _ _ hsv
      have hmgr : update_counter (sys.mgr + 1)
          ({ m with order := sys.mgr + 1 } : DbMessage) = sys.mgr + 1 := by
        simp [update_counter]
      have hown : ownOrdersOfLog (sys.log ++ e.indexed.map (fun x => (true, x))) =
          ownOrders sys ++ [sys.mgr + 1] := by
        rw [ownOrdersOfLog_append, ownOrdersOfLog_true]
        rw [show e.indexed.map (fun x => x.order) = [sys.mgr + 1] from hidx]
        rfl
      constructor
      · intro o ho
        have ho' : o ∈ ownOrders sys ++ [sys.mgr + 1] := by
          rw [← hown]; exact ho
        show o ≤ update_counter (sys.mgr + 1)
          ({ m with order := sys.mgr + 1 } : DbMessage)
        rw [hmgr]
        rcases List.mem_append.1 ho' with hm | hm
        · exact le_trans (hle o hm) (by omega)
        · rw [List.mem_singleton.1 hm]
      · show List.Pairwise (· < ·)
          (ownOrdersOfLog (sys.log ++ e.indexed.map (fun x => (true, x))))
        rw [hown]
        apply List.pairwise_append.2
        refine ⟨hpw, List.pairwise_singleton _ _, ?_⟩
        intro a ha b hb
        rw [List.mem_singleton.1 hb]
        exact lt_of_le_of_lt (hle a ha) (by omega)
  | batch pid msgs =>
    simp only [stepSys, apply_remote_batch]
    cases hsv : insert_message_batch (getOrCreateRepo sys.repos pid).1 msgs with
    | error e =>
      show mgrInv { sys with repos := (getOrCreateRepo sys.repos pid).2 }
      exact ⟨hle, hpw⟩
    | ok e =>
      show mgrInv
        { mgr := update_counter_many sys.mgr e.indexed,
          repos := setRepo (getOrCreateRepo sys.repos pid).2 pid e.state,
          log := sys.log ++ e.indexed.map (fun x => (false, x)) }
      have hown : ownOrdersOfLog (sys.log ++ e.indexed.map (fun x => (false, x))) =
          ownOrders sys := by
        rw [ownOrdersOfLog_append, ownOrdersOfLog_false, List.append_nil]
        rfl
      constructor
      · intro o ho
        have ho' : o ∈ ownOrders sys := by rw [← hown]; exact ho
        exact le_trans (hle o ho')
          (le_update_counter_many e.indexed sys.mgr)
      · show List.Pairwise (· < ·)
          (ownOrdersOfLog (sys.log ++ e.indexed.map (fun x => (false, x))))
        rw [hown]
        exact hpw

theorem runSys_inv (ops : List SysOp) :
    ∀ sys, mgrInv sys → mgrInv (runSys sys ops) := by
  induction ops with
  | nil => intro sys h; exact h
  | cons op rest ih =>
    intro sys h
    exact ih _ (stepSys_inv sys op h)

/-- C1 counterexample: after one local append (which the manager stamps
with order 1) and one remote batch whose entry carries the
remote-assigned order 1, the node stores two entries with order 1 — the
manager does not assign `order` on batch appends and the stored orders
are neither distinct nor strictly increasing. -/
theorem order_duplicated_on_batch :
    allOrders (runSys initSys exC1Ops) = [1, 1] ∧
      ¬ List.Pairwise (· < ·) (allOrders (runSys initSys exC1Ops)) := by
  constructor
  · rfl
  · intro hp
    have h : allOrders (runSys initSys exC1Ops) = [1, 1] := rfl
    rw [h] at hp
    exact absurd (List.rel_of_pairwise_cons hp (List.mem_singleton.2 rfl))
      (by omega)

/-- C1 amended: the manager assigns `order` only on local appends
(`add_own_message`), where the orders it hands out are strictly
increasing in append sequence and never exceed the manager counter;
remote batches keep the order values carried in the batch (the manager
only raises its counter to their maximum), so orders across all stored
entries need not be distinct. -/
theorem own_orders_strictly_increasing (ops : List SysOp) :
    (∀ o ∈ ownOrders (runSys initSys ops), o ≤ (runSys initSys ops).mgr) ∧
      List.Pairwise (· < ·) (ownOrders (runSys initSys ops)) :=
  runSys_inv ops initSys ⟨fun o ho => absurd ho (List.not_mem_nil o), List.Pairwise.nil⟩


/-- C8: a successful paired run of `write_handshake` against
`read_handshake` yields the same derived symmetric key on both sides
(HKDF of the commuting X25519 shared secret, no salt, info "p2p-chat"),
and each side's `their_pub_key` is the other's long-term verifying key. -/
theorem handshake_agreement {Xsk Esk : Type} (P : HsPrims Xsk Esk)
    (hdh : ∀ a b, P.dh a (P.xpub b) = P.dh b (P.xpub a))
    (hverify : ∀ sk m, P.verify (P.vpub sk) m (P.sign sk m) = true)
    (d_sign a_sign : Esk) (d_eph a_eph : Xsk) :
    ∃ hd ha, runHandshake P d_sign a_sign d_eph a_eph = Except.ok (hd, ha) ∧
      hd.symmetric_key = ha.symmetric_key ∧
      hd.their_pub_key = P.vpub a_sign ∧
      ha.their_pub_key = P.vpub d_sign := by
  have hv1 := hverify a_sign (P.xpub d_eph ++ P.xpub a_eph)
  have hv2 := hverify d_sign (P.xpub d_eph ++ P.xpub a_eph)
  refine ⟨{ symmetric_key := P.hkdfExpand none (P.dh d_eph (P.xpub a_eph))
              DERIVATION_TEXT,
            their_pub_key := P.vpub a_sign },
          { symmetric_key := P.hkdfExpand none (P.dh a_eph (P.xpub d_eph))
              DERIVATION_TEXT,
            their_pub_key := P.vpub d_sign }, ?_, ?_, rfl, rfl⟩
  · simp only [runHandshake, read_handshake, write_handshake, hv1, hv2,
      if_true]
  · show P.hkdfExpand none (P.dh d_eph (P.xpub a_eph)) DERIVATION_TEXT =
      P.hkdfExpand none (P.dh a_eph (P.xpub d_eph)) DERIVATION_TEXT
    rw [hdh d_eph a_eph]

/-- C8 witness: the agreement theorem instantiated with a concrete
commutative Diffie-Hellman and rebuilding signature scheme. -/
theorem handshake_agreement_witness :
    ∃ hd ha, runHandshake hsPrimsEx 5 6 7 8 = Except.ok (hd, ha) ∧
      hd.symmetric_key = ha.symmetric_key ∧
      hd.their_pub_key = hsPrimsEx.vpub 6 ∧
      ha.their_pub_key = hsPrimsEx.vpub 5 :=
  handshake_agreement hsPrimsEx
    (fun a b => by simp [hsPrimsEx, Nat.mul_comm])
    (fun sk m => by simp [hsPrimsEx])
    5 6 7 8

end PaperPlane
